import Mathlib

/-!
Verification of the RAC (Random Access Compression) container toolchain and of
the JPEG benchmark helper that ships with it.

The RAC core (ChunkPlanner, IndexBuilder, IndexReader, RangeResolver,
DecodeScheduler) is modelled from the specification, since only its CLI usage
text is present in the repository sources; the JPEG benchmark helper is
embedded directly from its Go source.
-/

namespace Rac

/-- Modelled from the spec: error kinds of section 7 (ConfigError, FormatError,
RangeError, IOError). -/
inductive RacError where
  | configError
  | formatError
  | rangeError
  | ioError
deriving Repr, DecidableEq

/-- Modelled from the spec: an IndexEntry records a chunk's DSpace range
`[dOffset, dOffset + dLength)` and CSpace range `[cOffset, cOffset + cLength)`.
Spec section 3 allows DOffset to be stored absolute or delta-encoded; it is
modelled as absolute so that the section 4.3 contiguity and monotonicity
validation is meaningful. -/
structure IndexEntry where
  dOffset : Nat
  dLength : Nat
  cOffset : Nat
  cLength : Nat
deriving Repr, DecidableEq

/-- Modelled from the spec: the CodecAdapter contract of section 4.4 — a
pluggable codec exposes `compress` and `decompress`, and decompressing a
compressed chunk recovers the plain bytes. Bytes are modelled as `Nat`s. -/
structure Codec where
  compress : List Nat → List Nat
  decompress : List Nat → List Nat
  decompress_compress : ∀ bs, decompress (compress bs) = bs

/-- The identity ("store") codec, used to instantiate witnesses. -/
def idCodec : Codec := ⟨id, id, fun _ => rfl⟩

/-- Modelled from the spec: index placement, "start" or "end" (section 4.3). -/
inductive IndexLocation where
  | start
  | atEnd
deriving Repr, DecidableEq

/-- Magic/version marker written at the head of every RAC file. -/
def racMagic : Nat := 314159

/-- Modelled from the spec: ChunkPlanner plus per-chunk compression
(section 4.1 and the encoding data flow of section 2).  Cuts the input every
`cs` decompressed bytes, compresses each piece independently, and accumulates
the index entries (DSpace offset `dOff`, CSpace offsets relative to the start
of the payload area) together with the concatenated compressed payload.
`fuel` is an upper bound on the number of remaining input bytes, supplied as
`data.length` by the caller so that the recursion is structural. -/
def buildChunks (codec : Codec) (cs : Nat) :
    Nat → List Nat → Nat → Nat → List IndexEntry × List Nat
  | 0, _, _, _ => ([], [])
  | _, [], _, _ => ([], [])
  | fuel + 1, data, dOff, cOff =>
    let piece := data.take cs
    let comp := codec.compress piece
    let r := buildChunks codec cs fuel (data.drop cs) (dOff + piece.length)
      (cOff + comp.length)
    (⟨dOff, piece.length, cOff, comp.length⟩ :: r.1, comp ++ r.2)

/-- Modelled from the spec: the persisted form of one IndexEntry
(section 6; DOffset stored absolute, see `IndexEntry`). -/
def serializeEntry (c : IndexEntry) : List Nat :=
  [c.dOffset, c.dLength, c.cOffset, c.cLength]

/-- Modelled from the spec: the serialized index is the entries in DOffset
order (section 4.3). -/
def serializeIndex (es : List IndexEntry) : List Nat :=
  (es.map serializeEntry).flatten

/-- Shift an entry's CSpace offset by `k`, used to relocate payload-relative
offsets to absolute file offsets. -/
def shiftC (k : Nat) (c : IndexEntry) : IndexEntry :=
  { c with cOffset := c.cOffset + k }

/-- Modelled from the spec: assemble a RAC file from an index and a payload
(section 6): a magic/version header, the entry count, a location flag, and
then either index-then-payload ("start") or payload-then-index ("end"). -/
def mkFile (es : List IndexEntry) (payload : List Nat) (loc : IndexLocation) :
    List Nat :=
  match loc with
  | .start => racMagic :: es.length :: 0 :: (serializeIndex es ++ payload)
  | .atEnd => racMagic :: es.length :: 1 :: (payload ++ serializeIndex es)

/-- Modelled from the spec: effective DSpace chunk size — a zero chunk size
selects the CLI default of 64 KiB. -/
def effCS (chunkSize : Nat) : Nat :=
  if chunkSize = 0 then 65536 else chunkSize

/-- Modelled from the spec: the planned chunks of one encode run —
payload-relative entries plus the concatenated compressed payload. -/
def encChunks (codec : Codec) (chunkSize : Nat) (data : List Nat) :
    List IndexEntry × List Nat :=
  buildChunks codec (effCS chunkSize) data.length data 0 0

/-- Modelled from the spec: where the chunk payload area begins — after the
header and index for "start" placement, right after the header for "end"
placement. -/
def encShift (loc : IndexLocation) (n : Nat) : Nat :=
  match loc with
  | .start => 3 + 4 * n
  | .atEnd => 3

/-- Modelled from the spec: the index entries written by one encode run, with
absolute CSpace offsets. -/
def encEntries (codec : Codec) (chunkSize : Nat) (loc : IndexLocation)
    (data : List Nat) : List IndexEntry :=
  (encChunks codec chunkSize data).1.map
    (shiftC (encShift loc (encChunks codec chunkSize data).1.length))

/-- Modelled from the spec: the encoder (sections 2, 4.1, 4.3). -/
def encodeFile (codec : Codec) (chunkSize : Nat) (loc : IndexLocation)
    (data : List Nat) : List Nat :=
  mkFile (encEntries codec chunkSize loc data) (encChunks codec chunkSize data).2 loc

/-- Modelled from the spec: IndexReader validation (section 4.3) — entries
must be DOffset-contiguous starting from `dOff`, strictly increasing
(each DLength positive), and their declared CSpace ranges must not overflow
the file's extent `cext`. -/
def okEntries : List IndexEntry → Nat → Nat → Bool
  | [], _, _ => true
  | c :: rest, dOff, cext =>
    (c.dOffset == dOff) && decide (0 < c.dLength) &&
      decide (c.cOffset + c.cLength ≤ cext) &&
      okEntries rest (c.dOffset + c.dLength) cext

/-- Modelled from the spec: parse the serialized index entries back from raw
values (section 4.3). -/
def parseEntries : List Nat → List IndexEntry
  | a :: b :: c :: d :: rest => ⟨a, b, c, d⟩ :: parseEntries rest
  | _ => []

/-- Modelled from the spec: total decompressed size described by an index. -/
def dTotal (es : List IndexEntry) : Nat :=
  (es.map (fun c => c.dLength)).sum

/-- Modelled from the spec: IndexReader (section 4.3) — validate the
magic/version header, locate the index region from the location flag, parse
the entries, and reject any index failing validation with a FormatError. -/
def readIndex (file : List Nat) : Except RacError (List IndexEntry) :=
  match file with
  | magic :: n :: locFlag :: rest =>
    if magic ≠ racMagic then .error .formatError
    else if locFlag ≠ 0 ∧ locFlag ≠ 1 then .error .formatError
    else if rest.length < 4 * n then .error .formatError
    else
      let idxBytes :=
        if locFlag = 0 then rest.take (4 * n) else rest.drop (rest.length - 4 * n)
      let es := parseEntries idxBytes
      if okEntries es 0 (3 + rest.length) then .ok es else .error .formatError
  | _ => .error .formatError

/-- Modelled from the spec: RangeResolver (section 4.5) — the ordered list of
entries whose DSpace ranges intersect the half-open request `[s, e)`. -/
def resolveRange (es : List IndexEntry) (s e : Nat) : List IndexEntry :=
  es.filter (fun c => decide (max c.dOffset s < min (c.dOffset + c.dLength) e))

/-- Modelled from the spec: decode one chunk (sections 4.4 and 4.6) — fetch
its compressed bytes from the file, decompress, fail with a FormatError when
the produced length does not match the declared DLength, and trim the plain
bytes to the requested range. -/
def decodeChunk (codec : Codec) (file : List Nat) (s e : Nat)
    (c : IndexEntry) : Except RacError (List Nat) :=
  let cBytes := (file.drop c.cOffset).take c.cLength
  let plain := codec.decompress cBytes
  if plain.length ≠ c.dLength then .error .formatError
  else
    .ok ((plain.drop (max c.dOffset s - c.dOffset)).take
      (min (c.dOffset + c.dLength) e - max c.dOffset s))

/-- Modelled from the spec: single-threaded DecodeScheduler (section 4.6) —
decode the resolved chunks strictly in DOffset order, emitting each chunk's
trimmed bytes immediately; a failure on any chunk aborts the request.  The
second component counts how many chunk fetches were performed. -/
def decodeChunksSeq (codec : Codec) (file : List Nat) (s e : Nat) :
    List IndexEntry → Except RacError (List Nat) × Nat
  | [] => (.ok [], 0)
  | c :: rest =>
    match decodeChunk codec file s e c with
    | .error er => (.error er, 1)
    | .ok bs =>
      let r := decodeChunksSeq codec file s e rest
      (r.1.map (fun tail => bs ++ tail), r.2 + 1)

/-- Modelled from the spec: the full single-threaded decode pipeline
(sections 2 and 4.5–4.6) — read and validate the index, reject an invalid
DSpace range with a RangeError before any chunk work, then resolve and decode.
The second component counts chunk fetches ("chunk I/O"). -/
def decodeRangeTraced (codec : Codec) (file : List Nat) (s e : Nat) :
    Except RacError (List Nat) × Nat :=
  match readIndex file with
  | .error er => (.error er, 0)
  | .ok es =>
    if s > e ∨ e > dTotal es then (.error .rangeError, 0)
    else decodeChunksSeq codec file s e (resolveRange es s e)

/-- Modelled from the spec: decode, dropping the I/O trace. -/
def decodeRange (codec : Codec) (file : List Nat) (s e : Nat) :
    Except RacError (List Nat) :=
  (decodeRangeTraced codec file s e).1

/-- DSpace contiguity: the entries tile `[dOff, dEnd)` in order, each with a
positive DLength. -/
def contig : List IndexEntry → Nat → Nat → Prop
  | [], dOff, dEnd => dOff = dEnd
  | c :: rest, dOff, dEnd =>
    c.dOffset = dOff ∧ 0 < c.dLength ∧ contig rest (dOff + c.dLength) dEnd

/-- CSpace contiguity: the entries' compressed ranges tile `[cOff, cEnd)` in
order. -/
def cContig : List IndexEntry → Nat → Nat → Prop
  | [], cOff, cEnd => cOff = cEnd
  | c :: rest, cOff, cEnd =>
    c.cOffset = cOff ∧ cContig rest (cOff + c.cLength) cEnd

lemma buildChunks_cons (codec : Codec) (cs fuel : Nat) (a : Nat) (l : List Nat)
    (dOff cOff : Nat) :
    buildChunks codec cs (fuel + 1) (a :: l) dOff cOff =
      (⟨dOff, ((a :: l).take cs).length, cOff,
          (codec.compress ((a :: l).take cs)).length⟩ ::
        (buildChunks codec cs fuel ((a :: l).drop cs)
          (dOff + ((a :: l).take cs).length)
          (cOff + (codec.compress ((a :: l).take cs)).length)).1,
       codec.compress ((a :: l).take cs) ++
        (buildChunks codec cs fuel ((a :: l).drop cs)
          (dOff + ((a :: l).take cs).length)
          (cOff + (codec.compress ((a :: l).take cs)).length)).2) := rfl

lemma buildChunks_contig (codec : Codec) (cs : Nat) (hcs : 0 < cs) :
    ∀ fuel data dOff cOff, data.length ≤ fuel →
      contig (buildChunks codec cs fuel data dOff cOff).1 dOff
        (dOff + data.length) := by
  intro fuel
  induction fuel with
  | zero =>
    intro data dOff cOff h
    have hd : data = [] := List.length_eq_zero.mp (Nat.le_zero.mp h)
    subst hd
    simp [buildChunks, contig]
  | succ fuel ih =>
    intro data dOff cOff h
    cases data with
    | nil => simp [buildChunks, contig]
    | cons a l =>
      have hlen : ((a :: l).drop cs).length ≤ fuel := by
        have h1 : (a :: l).length ≤ fuel + 1 := h
        have h2 : ((a :: l).drop cs).length = (a :: l).length - cs :=
          List.length_drop cs (a :: l)
        have h3 : (a :: l).length = l.length + 1 := List.length_cons a l
        omega
      have hrec := ih ((a :: l).drop cs) (dOff + ((a :: l).take cs).length)
        (cOff + (codec.compress ((a :: l).take cs)).length) hlen
      rw [buildChunks_cons]
      refine ⟨rfl, ?_, ?_⟩
      · show 0 < ((a :: l).take cs).length
        have h4 : ((a :: l).take cs).length = min cs (a :: l).length :=
          List.length_take cs (a :: l)
        have h3 : (a :: l).length = l.length + 1 := List.length_cons a l
        omega
      · show contig _ (dOff + ((a :: l).take cs).length) (dOff + (a :: l).length)
        have harith : dOff + ((a :: l).take cs).length + ((a :: l).drop cs).length
            = dOff + (a :: l).length := by
          have h4 : ((a :: l).take cs).length = min cs (a :: l).length :=
            List.length_take cs (a :: l)
          have h2 : ((a :: l).drop cs).length = (a :: l).length - cs :=
            List.length_drop cs (a :: l)
          have h3 : (a :: l).length = l.length + 1 := List.length_cons a l
          omega
        rw [← harith]
        exact hrec

lemma buildChunks_ccontig (codec : Codec) (cs : Nat) (hcs : 0 < cs) :
    ∀ fuel data dOff cOff, data.length ≤ fuel →
      cContig (buildChunks codec cs fuel data dOff cOff).1 cOff
        (cOff + (buildChunks codec cs fuel data dOff cOff).2.length) := by
  intro fuel
  induction fuel with
  | zero =>
    intro data dOff cOff h
    have hd : data = [] := List.length_eq_zero.mp (Nat.le_zero.mp h)
    subst hd
    simp [buildChunks, cContig]
  | succ fuel ih =>
    intro data dOff cOff h
    cases data with
    | nil => simp [buildChunks, cContig]
    | cons a l =>
      have hlen : ((a :: l).drop cs).length ≤ fuel := by
        have h1 : (a :: l).length ≤ fuel + 1 := h
        have h2 : ((a :: l).drop cs).length = (a :: l).length - cs :=
          List.length_drop cs (a :: l)
        have h3 : (a :: l).length = l.length + 1 := List.length_cons a l
        omega
      have hrec := ih ((a :: l).drop cs) (dOff + ((a :: l).take cs).length)
        (cOff + (codec.compress ((a :: l).take cs)).length) hlen
      rw [buildChunks_cons]
      refine ⟨rfl, ?_⟩
      show cContig _ (cOff + (codec.compress ((a :: l).take cs)).length) _
      have harith : cOff + (codec.compress ((a :: l).take cs)).length
          + (buildChunks codec cs fuel ((a :: l).drop cs)
              (dOff + ((a :: l).take cs).length)
              (cOff + (codec.compress ((a :: l).take cs)).length)).2.length
          = cOff + (codec.compress ((a :: l).take cs) ++
              (buildChunks codec cs fuel ((a :: l).drop cs)
                (dOff + ((a :: l).take cs).length)
                (cOff + (codec.compress ((a :: l).take cs)).length)).2).length := by
        rw [List.length_append]
        omega
      rw [← harith]
      exact hrec

lemma take_length_take {α : Type} (l : List α) (n : Nat) :
    l.take ((l.take n).length) = l.take n := by
  rw [List.length_take]
  rcases Nat.le_total n l.length with h | h
  · rw [Nat.min_eq_left h]
  · rw [Nat.min_eq_right h, List.take_length, List.take_of_length_le h]

lemma buildChunks_nil (codec : Codec) (cs fuel dOff cOff : Nat) :
    buildChunks codec cs fuel [] dOff cOff = ([], []) := by
  cases fuel <;> rfl

lemma buildChunks_mem (codec : Codec) (cs : Nat) (hcs : 0 < cs) :
    ∀ fuel data dOff cOff, data.length ≤ fuel →
      ∀ es pl, buildChunks codec cs fuel data dOff cOff = (es, pl) →
        ∀ c ∈ es,
          dOff ≤ c.dOffset ∧ c.dOffset + c.dLength ≤ dOff + data.length ∧
          cOff ≤ c.cOffset ∧ c.cOffset + c.cLength ≤ cOff + pl.length ∧
          (pl.drop (c.cOffset - cOff)).take c.cLength
            = codec.compress ((data.drop (c.dOffset - dOff)).take c.dLength) := by
  intro fuel
  induction fuel with
  | zero =>
    intro data dOff cOff h es pl heq c hc
    have hd : data = [] := List.length_eq_zero.mp (Nat.le_zero.mp h)
    subst hd
    rw [buildChunks_nil] at heq
    cases heq
    cases hc
  | succ fuel ih =>
    intro data dOff cOff h es pl heq c hc
    cases data with
    | nil =>
      rw [buildChunks_nil] at heq
      cases heq
      cases hc
    | cons a l =>
      rw [buildChunks_cons] at heq
      cases heq
      have hplen : ((a :: l).take cs).length = min cs (a :: l).length :=
        List.length_take cs (a :: l)
      rcases List.mem_cons.mp hc with hhead | htail
      · subst hhead
        refine ⟨Nat.le_refl _, ?_, Nat.le_refl _, ?_, ?_⟩
        · show dOff + ((a :: l).take cs).length ≤ dOff + (a :: l).length
          have := List.length_take_le cs (a :: l)
          omega
        · show cOff + (codec.compress ((a :: l).take cs)).length ≤ _
          rw [List.length_append]
          omega
        · show ((codec.compress ((a :: l).take cs) ++ _).drop (cOff - cOff)).take
              (codec.compress ((a :: l).take cs)).length = _
          rw [Nat.sub_self, List.drop_zero, List.take_left, Nat.sub_self,
            List.drop_zero, take_length_take]
      · have hlen : ((a :: l).drop cs).length ≤ fuel := by
          have h2 : ((a :: l).drop cs).length = (a :: l).length - cs :=
            List.length_drop cs (a :: l)
          have h3 : (a :: l).length = l.length + 1 := List.length_cons a l
          have h1 : (a :: l).length ≤ fuel + 1 := h
          omega
        have hrec := ih ((a :: l).drop cs) (dOff + ((a :: l).take cs).length)
          (cOff + (codec.compress ((a :: l).take cs)).length) hlen
          (buildChunks codec cs fuel ((a :: l).drop cs)
            (dOff + ((a :: l).take cs).length)
            (cOff + (codec.compress ((a :: l).take cs)).length)).1
          (buildChunks codec cs fuel ((a :: l).drop cs)
            (dOff + ((a :: l).take cs).length)
            (cOff + (codec.compress ((a :: l).take cs)).length)).2
          rfl c htail
        obtain ⟨hb1, hb2, hb3, hb4, hb5⟩ := hrec
        have hcsle : cs ≤ (a :: l).length := by
          by_contra hgt
          push_neg at hgt
          have : (a :: l).drop cs = [] := List.drop_eq_nil_of_le (Nat.le_of_lt hgt)
          rw [this, buildChunks_nil] at htail
          cases htail
        have hpl_cs : ((a :: l).take cs).length = cs := by omega
        refine ⟨by omega, ?_, by omega, ?_, ?_⟩
        · have h2 : ((a :: l).drop cs).length = (a :: l).length - cs :=
            List.length_drop cs (a :: l)
          omega
        · rw [List.length_append]
          omega
        · have hsplitC : c.cOffset - cOff
              = (codec.compress ((a :: l).take cs)).length
                + (c.cOffset - (cOff + (codec.compress ((a :: l).take cs)).length)) := by
            omega
          rw [hsplitC, List.drop_append, hb5]
          have hsplitD : c.dOffset - dOff
              = cs + (c.dOffset - (dOff + ((a :: l).take cs).length)) := by
            omega
          rw [hsplitD, ← List.drop_drop, hpl_cs]

lemma serializeIndex_cons (c : IndexEntry) (es : List IndexEntry) :
    serializeIndex (c :: es) = serializeEntry c ++ serializeIndex es := by
  simp [serializeIndex]

lemma serializeIndex_length (es : List IndexEntry) :
    (serializeIndex es).length = 4 * es.length := by
  induction es with
  | nil => rfl
  | cons c rest ih =>
    rw [serializeIndex_cons, List.length_append, ih]
    simp [serializeEntry]
    omega

lemma parseEntries_serializeIndex (es : List IndexEntry) :
    parseEntries (serializeIndex es) = es := by
  induction es with
  | nil => rfl
  | cons c rest ih =>
    rw [serializeIndex_cons]
    show parseEntries (c.dOffset :: c.dLength :: c.cOffset :: c.cLength ::
      serializeIndex rest) = c :: rest
    rw [parseEntries, ih]

lemma dTotal_cons (c : IndexEntry) (es : List IndexEntry) :
    dTotal (c :: es) = c.dLength + dTotal es := by
  simp [dTotal]

lemma okEntries_iff (es : List IndexEntry) : ∀ dOff cext,
    okEntries es dOff cext = true ↔
      (contig es dOff (dOff + dTotal es) ∧
        ∀ c ∈ es, c.cOffset + c.cLength ≤ cext) := by
  induction es with
  | nil =>
    intro dOff cext
    simp [okEntries, contig, dTotal]
  | cons c rest ih =>
    intro dOff cext
    rw [okEntries, dTotal_cons]
    simp only [Bool.and_eq_true, beq_iff_eq, decide_eq_true_eq]
    constructor
    · rintro ⟨⟨⟨h1, h2⟩, h3⟩, h4⟩
      obtain ⟨hc, hb⟩ := (ih (c.dOffset + c.dLength) cext).mp h4
      subst h1
      refine ⟨⟨rfl, h2, ?_⟩, ?_⟩
      · have : c.dOffset + (c.dLength + dTotal rest)
            = c.dOffset + c.dLength + dTotal rest := by omega
        rw [this]
        exact hc
      · intro x hx
        rcases List.mem_cons.mp hx with hx | hx
        · subst hx; exact h3
        · exact hb x hx
    · rintro ⟨⟨h1, h2, hc⟩, hb⟩
      subst h1
      refine ⟨⟨⟨rfl, h2⟩, hb c (List.mem_cons_self c rest)⟩, ?_⟩
      refine (ih (c.dOffset + c.dLength) cext).mpr ⟨?_, ?_⟩
      · have : c.dOffset + (c.dLength + dTotal rest)
            = c.dOffset + c.dLength + dTotal rest := by omega
        rw [← this]
        exact hc
      · intro x hx
        exact hb x (List.mem_cons_of_mem c hx)

lemma readIndex_mkFile (es : List IndexEntry) (payload : List Nat)
    (loc : IndexLocation) :
    readIndex (mkFile es payload loc)
      = if okEntries es 0 (3 + (4 * es.length + payload.length)) then .ok es
        else .error .formatError := by
  cases loc with
  | start =>
    show readIndex (racMagic :: es.length :: 0 :: (serializeIndex es ++ payload)) = _
    rw [readIndex]
    rw [if_neg (show ¬ racMagic ≠ racMagic by simp)]
    rw [if_neg (show ¬ ((0 : Nat) ≠ 0 ∧ (0 : Nat) ≠ 1) by simp)]
    rw [if_neg (show ¬ ((serializeIndex es ++ payload).length < 4 * es.length) by
      rw [List.length_append, serializeIndex_length]; omega)]
    rw [if_pos (show (0 : Nat) = 0 from rfl)]
    rw [← serializeIndex_length es, List.take_left]
    simp only [parseEntries_serializeIndex, List.length_append, serializeIndex_length]
  | atEnd =>
    show readIndex (racMagic :: es.length :: 1 :: (payload ++ serializeIndex es)) = _
    rw [readIndex]
    rw [if_neg (show ¬ racMagic ≠ racMagic by simp)]
    rw [if_neg (show ¬ ((1 : Nat) ≠ 0 ∧ (1 : Nat) ≠ 1) by simp)]
    rw [if_neg (show ¬ ((payload ++ serializeIndex es).length < 4 * es.length) by
      rw [List.length_append, serializeIndex_length]; omega)]
    rw [if_neg (show ¬ ((1 : Nat) = 0) by simp)]
    rw [show (payload ++ serializeIndex es).length - 4 * es.length
        = payload.length by rw [List.length_append, serializeIndex_length]; omega]
    rw [List.drop_left]
    simp only [parseEntries_serializeIndex, List.length_append, serializeIndex_length]
    rw [Nat.add_comm (payload.length) (4 * es.length)]

lemma contig_dTotal : ∀ (es : List IndexEntry) (a b : Nat),
    contig es a b → b = a + dTotal es := by
  intro es
  induction es with
  | nil =>
    intro a b h
    have h2 : a = b := h
    simp [dTotal]
    omega
  | cons c rest ih =>
    intro a b h
    obtain ⟨h1, _, h3⟩ := h
    have := ih (a + c.dLength) b h3
    rw [dTotal_cons]
    omega

lemma contig_mem_bounds : ∀ (es : List IndexEntry) (a b : Nat),
    contig es a b → ∀ c ∈ es, a ≤ c.dOffset ∧ c.dOffset + c.dLength ≤ b := by
  intro es
  induction es with
  | nil => intro a b _ c hc; cases hc
  | cons x rest ih =>
    intro a b h c hc
    obtain ⟨h1, h2, h3⟩ := h
    rcases List.mem_cons.mp hc with hc | hc
    · subst hc
      constructor
      · omega
      · have hend := contig_dTotal rest (a + c.dLength) b h3
        omega
    · have := ih (a + x.dLength) b h3 c hc
      omega

lemma contig_map_shiftC (k : Nat) : ∀ (es : List IndexEntry) (a b : Nat),
    contig es a b → contig (es.map (shiftC k)) a b := by
  intro es
  induction es with
  | nil => intro a b h; exact h
  | cons c rest ih =>
    intro a b h
    obtain ⟨h1, h2, h3⟩ := h
    exact ⟨h1, h2, ih _ _ h3⟩

lemma dTotal_map_shiftC (k : Nat) (es : List IndexEntry) :
    dTotal (es.map (shiftC k)) = dTotal es := by
  induction es with
  | nil => rfl
  | cons c rest ih =>
    rw [List.map_cons, dTotal_cons, dTotal_cons, ih]
    simp [shiftC]

lemma contig_pairwise_disjoint : ∀ (es : List IndexEntry) (a b : Nat),
    contig es a b →
      es.Pairwise (fun x y => x.dOffset + x.dLength ≤ y.dOffset) := by
  intro es
  induction es with
  | nil => intro a b _; exact List.Pairwise.nil
  | cons x rest ih =>
    intro a b h
    obtain ⟨h1, h2, h3⟩ := h
    refine List.Pairwise.cons ?_ (ih _ _ h3)
    intro y hy
    have := (contig_mem_bounds rest (a + x.dLength) b h3 y hy).1
    omega

lemma contig_pairwise_lt : ∀ (es : List IndexEntry) (a b : Nat),
    contig es a b → es.Pairwise (fun x y => x.dOffset < y.dOffset) := by
  intro es
  induction es with
  | nil => intro a b _; exact List.Pairwise.nil
  | cons x rest ih =>
    intro a b h
    obtain ⟨h1, h2, h3⟩ := h
    refine List.Pairwise.cons ?_ (ih _ _ h3)
    intro y hy
    have := (contig_mem_bounds rest (a + x.dLength) b h3 y hy).1
    omega

lemma effCS_pos (chunkSize : Nat) : 0 < effCS chunkSize := by
  unfold effCS
  split <;> omega

lemma encChunks_contig (codec : Codec) (chunkSize : Nat) (data : List Nat) :
    contig (encChunks codec chunkSize data).1 0 data.length := by
  have := buildChunks_contig codec (effCS chunkSize) (effCS_pos chunkSize)
    data.length data 0 0 (Nat.le_refl _)
  simpa using this

lemma encChunks_mem (codec : Codec) (chunkSize : Nat) (data : List Nat) :
    ∀ c ∈ (encChunks codec chunkSize data).1,
      c.dOffset + c.dLength ≤ data.length ∧
      c.cOffset + c.cLength ≤ (encChunks codec chunkSize data).2.length ∧
      ((encChunks codec chunkSize data).2.drop c.cOffset).take c.cLength
        = codec.compress ((data.drop c.dOffset).take c.dLength) := by
  intro c hc
  have := buildChunks_mem codec (effCS chunkSize) (effCS_pos chunkSize)
    data.length data 0 0 (Nat.le_refl _)
    (encChunks codec chunkSize data).1 (encChunks codec chunkSize data).2
    rfl c hc
  obtain ⟨_, h2, _, h4, h5⟩ := this
  rw [Nat.sub_zero, Nat.sub_zero] at h5
  exact ⟨by omega, by omega, h5⟩

lemma encEntries_length (codec : Codec) (chunkSize : Nat) (loc : IndexLocation)
    (data : List Nat) :
    (encEntries codec chunkSize loc data).length
      = (encChunks codec chunkSize data).1.length := by
  unfold encEntries
  rw [List.length_map]

lemma dTotal_encEntries (codec : Codec) (chunkSize : Nat) (loc : IndexLocation)
    (data : List Nat) :
    dTotal (encEntries codec chunkSize loc data) = data.length := by
  unfold encEntries
  rw [dTotal_map_shiftC]
  have h := contig_dTotal _ 0 data.length (encChunks_contig codec chunkSize data)
  omega

lemma encEntries_contig (codec : Codec) (chunkSize : Nat) (loc : IndexLocation)
    (data : List Nat) :
    contig (encEntries codec chunkSize loc data) 0 data.length :=
  contig_map_shiftC _ _ 0 data.length (encChunks_contig codec chunkSize data)

lemma encEntries_ok (codec : Codec) (chunkSize : Nat) (loc : IndexLocation)
    (data : List Nat) :
    okEntries (encEntries codec chunkSize loc data) 0
      (3 + (4 * (encEntries codec chunkSize loc data).length
        + (encChunks codec chunkSize data).2.length)) = true := by
  rw [okEntries_iff]
  constructor
  · have h := encEntries_contig codec chunkSize loc data
    have hd := dTotal_encEntries codec chunkSize loc data
    rw [Nat.zero_add, hd]
    exact h
  · intro c hc
    unfold encEntries at hc
    obtain ⟨c0, hc0, hshift⟩ := List.mem_map.mp hc
    subst hshift
    have hb := (encChunks_mem codec chunkSize data c0 hc0).2.1
    rw [encEntries_length]
    show c0.cOffset + encShift loc _ + c0.cLength ≤ _
    cases loc <;> simp only [encShift] <;> omega

lemma readIndex_encodeFile (codec : Codec) (chunkSize : Nat)
    (loc : IndexLocation) (data : List Nat) :
    readIndex (encodeFile codec chunkSize loc data)
      = .ok (encEntries codec chunkSize loc data) := by
  unfold encodeFile
  rw [readIndex_mkFile, if_pos (encEntries_ok codec chunkSize loc data)]

lemma encodeFile_chunk_good (codec : Codec) (chunkSize : Nat)
    (loc : IndexLocation) (data : List Nat) :
    ∀ c ∈ encEntries codec chunkSize loc data,
      codec.decompress
          (((encodeFile codec chunkSize loc data).drop c.cOffset).take c.cLength)
        = (data.drop c.dOffset).take c.dLength ∧
      c.dOffset + c.dLength ≤ data.length := by
  intro c hc
  unfold encEntries at hc
  obtain ⟨c0, hc0, hshift⟩ := List.mem_map.mp hc
  obtain ⟨hd, hcb, hslice⟩ := encChunks_mem codec chunkSize data c0 hc0
  subst hshift
  refine ⟨?_, hd⟩
  show codec.decompress
      (((encodeFile codec chunkSize loc data).drop
        (c0.cOffset + encShift loc (encChunks codec chunkSize data).1.length)).take
        c0.cLength)
    = (data.drop c0.dOffset).take c0.dLength
  cases loc with
  | start =>
    have hfile : encodeFile codec chunkSize .start data
        = (racMagic :: (encEntries codec chunkSize .start data).length :: 0 ::
            serializeIndex (encEntries codec chunkSize .start data))
          ++ (encChunks codec chunkSize data).2 := rfl
    rw [hfile]
    have hlenA : (racMagic :: (encEntries codec chunkSize .start data).length :: 0 ::
        serializeIndex (encEntries codec chunkSize .start data)).length
        = encShift .start (encChunks codec chunkSize data).1.length := by
      simp only [List.length_cons, serializeIndex_length, encEntries_length, encShift]
      omega
    rw [show c0.cOffset + encShift .start (encChunks codec chunkSize data).1.length
        = (racMagic :: (encEntries codec chunkSize .start data).length :: 0 ::
            serializeIndex (encEntries codec chunkSize .start data)).length
          + c0.cOffset by rw [hlenA]; omega]
    rw [List.drop_append, hslice, codec.decompress_compress]
  | atEnd =>
    have hfile : encodeFile codec chunkSize .atEnd data
        = (racMagic :: (encEntries codec chunkSize .atEnd data).length :: 1 :: [])
          ++ ((encChunks codec chunkSize data).2
            ++ serializeIndex (encEntries codec chunkSize .atEnd data)) := rfl
    rw [hfile]
    rw [show c0.cOffset + encShift .atEnd (encChunks codec chunkSize data).1.length
        = (racMagic :: (encEntries codec chunkSize .atEnd data).length :: 1 ::
            ([] : List Nat)).length + c0.cOffset by simp [encShift]; omega]
    rw [List.drop_append]
    rw [List.drop_append_of_le_length (by omega)]
    rw [List.take_append_of_le_length (by rw [List.length_drop]; omega)]
    rw [hslice, codec.decompress_compress]

/-- Per-chunk decode soundness: on a chunk whose compressed file slice
decompresses to its DSpace slice of `data`, `decodeChunk` succeeds and
returns exactly the range-trimmed slice of `data`. -/
lemma decodeChunk_good (codec : Codec) (file data : List Nat) (s e : Nat)
    (c : IndexEntry)
    (hgood : codec.decompress ((file.drop c.cOffset).take c.cLength)
      = (data.drop c.dOffset).take c.dLength)
    (hbound : c.dOffset + c.dLength ≤ data.length) :
    decodeChunk codec file s e c
      = .ok ((data.drop (max c.dOffset s)).take
          (min (c.dOffset + c.dLength) e - max c.dOffset s)) := by
  unfold decodeChunk
  show (if (codec.decompress ((file.drop c.cOffset).take c.cLength)).length ≠ c.dLength
      then Except.error RacError.formatError
      else .ok (((codec.decompress ((file.drop c.cOffset).take c.cLength)).drop
          (max c.dOffset s - c.dOffset)).take
        (min (c.dOffset + c.dLength) e - max c.dOffset s))) = _
  rw [hgood]
  have hplen : ((data.drop c.dOffset).take c.dLength).length = c.dLength := by
    rw [List.length_take, List.length_drop]
    omega
  rw [if_neg (by rw [hplen]; exact fun h => h rfl)]
  congr 1
  rw [List.drop_take]
  rw [List.drop_drop]
  rw [show c.dOffset + (max c.dOffset s - c.dOffset) = max c.dOffset s by omega]
  rw [List.take_take]
  rw [Nat.min_eq_left (by omega)]

lemma resolveRange_all_before (es : List IndexEntry) (off b : Nat)
    (h : contig es off b) (s e : Nat) (he : e ≤ off) :
    resolveRange es s e = [] := by
  unfold resolveRange
  rw [List.filter_eq_nil_iff]
  intro c hc
  have := (contig_mem_bounds es off b h c hc).1
  simp only [decide_eq_true_eq]
  omega

lemma decodeChunksSeq_cons_ok (codec : Codec) (file : List Nat) (s e : Nat)
    (c : IndexEntry) (l : List IndexEntry) (bs : List Nat)
    (h : decodeChunk codec file s e c = .ok bs) :
    decodeChunksSeq codec file s e (c :: l)
      = ((decodeChunksSeq codec file s e l).1.map (fun tail => bs ++ tail),
         (decodeChunksSeq codec file s e l).2 + 1) := by
  have heq : decodeChunksSeq codec file s e (c :: l)
      = match decodeChunk codec file s e c with
        | .error er => (.error er, 1)
        | .ok bs =>
          ((decodeChunksSeq codec file s e l).1.map (fun tail => bs ++ tail),
           (decodeChunksSeq codec file s e l).2 + 1) := rfl
  rw [heq, h]

/-- Core decode soundness: over a contiguous, per-chunk-sound entry list, the
sequential scheduler applied to the resolved chunks reconstructs exactly the
requested slice of the original data. -/
lemma decodeChunksSeq_resolved (codec : Codec) (file data : List Nat) :
    ∀ (es : List IndexEntry) (off total : Nat),
      contig es off (off + total) →
      (∀ c ∈ es,
        codec.decompress ((file.drop c.cOffset).take c.cLength)
          = (data.drop c.dOffset).take c.dLength ∧
        c.dOffset + c.dLength ≤ data.length) →
      ∀ s e : Nat, s < e → e ≤ off + total →
        (decodeChunksSeq codec file s e (resolveRange es s e)).1
          = .ok ((data.drop (max s off)).take (e - max s off)) := by
  intro es
  induction es with
  | nil =>
    intro off total hcontig hgood s e hse he
    have h0 : off = off + total := hcontig
    rw [show resolveRange [] s e = [] from rfl]
    rw [show e - max s off = 0 by omega]
    simp [decodeChunksSeq]
  | cons c rest ih =>
    intro off total hcontig hgood s e hse he
    obtain ⟨hc1, hc2, hc3⟩ := hcontig
    subst hc1
    have hgc := hgood c (List.mem_cons_self c rest)
    have hgrest : ∀ x ∈ rest,
        codec.decompress ((file.drop x.cOffset).take x.cLength)
          = (data.drop x.dOffset).take x.dLength ∧
        x.dOffset + x.dLength ≤ data.length :=
      fun x hx => hgood x (List.mem_cons_of_mem c hx)
    have htot : c.dOffset + total = (c.dOffset + c.dLength) + dTotal rest :=
      contig_dTotal rest (c.dOffset + c.dLength) (c.dOffset + total) hc3
    have hc3' : contig rest (c.dOffset + c.dLength)
        ((c.dOffset + c.dLength) + dTotal rest) := by
      rw [← htot]
      exact hc3
    by_cases heoff : e ≤ c.dOffset
    · rw [resolveRange_all_before (c :: rest) c.dOffset (c.dOffset + total)
        ⟨rfl, hc2, hc3⟩ s e heoff]
      rw [show e - max s c.dOffset = 0 by omega]
      simp [decodeChunksSeq]
    · push_neg at heoff
      unfold resolveRange
      rw [List.filter_cons]
      by_cases hs : c.dOffset + c.dLength ≤ s
      · rw [if_neg (by simp only [decide_eq_true_eq]; omega)]
        have hrec := ih (c.dOffset + c.dLength) (dTotal rest) hc3' hgrest s e hse
          (by omega)
        unfold resolveRange at hrec
        rw [hrec]
        rw [show max s (c.dOffset + c.dLength) = s by omega,
          show max s c.dOffset = s by omega]
      · push_neg at hs
        rw [if_pos (by simp only [decide_eq_true_eq]; omega)]
        rw [decodeChunksSeq_cons_ok codec file s e c _ _
          (decodeChunk_good codec file data s e c hgc.1 hgc.2)]
        by_cases he2 : e ≤ c.dOffset + c.dLength
        · have hnil : resolveRange rest s e = [] :=
            resolveRange_all_before rest (c.dOffset + c.dLength)
              ((c.dOffset + c.dLength) + dTotal rest) hc3' s e he2
          unfold resolveRange at hnil
          rw [hnil]
          show Except.map _ (.ok []) = _
          rw [show Except.map (fun tail => (data.drop (max c.dOffset s)).take
              (min (c.dOffset + c.dLength) e - max c.dOffset s) ++ tail)
              (Except.ok ([] : List Nat))
            = Except.ok ((data.drop (max c.dOffset s)).take
              (min (c.dOffset + c.dLength) e - max c.dOffset s) ++ []) from rfl]
          rw [List.append_nil]
          rw [Nat.min_eq_right he2, Nat.max_comm c.dOffset s]
        · push_neg at he2
          have hrec := ih (c.dOffset + c.dLength) (dTotal rest) hc3' hgrest s e hse
            (by omega)
          unfold resolveRange at hrec
          rw [hrec]
          show Except.ok _ = _
          rw [show max s (c.dOffset + c.dLength) = c.dOffset + c.dLength by omega]
          rw [Nat.min_eq_left (by omega), Nat.max_comm c.dOffset s]
          rw [show e - max s c.dOffset
              = ((c.dOffset + c.dLength) - max s c.dOffset)
                + (e - (c.dOffset + c.dLength)) by omega]
          rw [List.take_add]
          rw [List.drop_drop]
          rw [show max s c.dOffset + ((c.dOffset + c.dLength) - max s c.dOffset)
              = c.dOffset + c.dLength by omega]

lemma resolveRange_self (es : List IndexEntry) (s : Nat) :
    resolveRange es s s = [] := by
  unfold resolveRange
  rw [List.filter_eq_nil_iff]
  intro c hc
  simp only [decide_eq_true_eq]
  omega

lemma decodeRangeTraced_ok (codec : Codec) (file : List Nat) (s e : Nat)
    (es : List IndexEntry) (h : readIndex file = .ok es) :
    decodeRangeTraced codec file s e
      = if s > e ∨ e > dTotal es then (.error .rangeError, 0)
        else decodeChunksSeq codec file s e (resolveRange es s e) := by
  unfold decodeRangeTraced
  rw [h]

lemma decodeRangeTraced_error (codec : Codec) (file : List Nat) (s e : Nat)
    (er : RacError) (h : readIndex file = .error er) :
    decodeRangeTraced codec file s e = (.error er, 0) := by
  unfold decodeRangeTraced
  rw [h]

/-- Full-pipeline decode soundness on encoded files, for valid ranges. -/
lemma decodeRange_encodeFile (codec : Codec) (chunkSize : Nat)
    (loc : IndexLocation) (data : List Nat) (s e : Nat) (hse : s ≤ e)
    (he : e ≤ data.length) :
    decodeRange codec (encodeFile codec chunkSize loc data) s e
      = .ok ((data.drop s).take (e - s)) := by
  unfold decodeRange
  rw [decodeRangeTraced_ok codec _ s e _ (readIndex_encodeFile codec chunkSize loc data)]
  rw [if_neg (by rw [dTotal_encEntries]; omega)]
  rcases Nat.lt_or_ge s e with hlt | hge
  · have hcontig : contig (encEntries codec chunkSize loc data) 0 (0 + data.length) := by
      rw [Nat.zero_add]
      exact encEntries_contig codec chunkSize loc data
    have := decodeChunksSeq_resolved codec (encodeFile codec chunkSize loc data) data
      (encEntries codec chunkSize loc data) 0 data.length hcontig
      (encodeFile_chunk_good codec chunkSize loc data) s e hlt (by omega)
    rw [this]
    rw [show max s 0 = s by omega]
  · have hes : s = e := by omega
    subst hes
    rw [resolveRange_self]
    rw [show s - s = 0 by omega]
    simp [decodeChunksSeq]

/-- C1: for every input, chunk-size configuration and index placement, and
every DSpace sub-range `[s, e)` with `0 ≤ s ≤ e ≤ len(data)`, decoding the
encoded file over `[s, e)` returns exactly `data[s:e]`; in particular the
full range decodes to bytes identical to `data`. -/
theorem c1_decode_encode_roundtrip (codec : Codec) (chunkSize : Nat)
    (loc : IndexLocation) (data : List Nat) (s e : Nat)
    (hse : s ≤ e) (he : e ≤ data.length) :
    decodeRange codec (encodeFile codec chunkSize loc data) s e
      = .ok ((data.drop s).take (e - s)) ∧
    decodeRange codec (encodeFile codec chunkSize loc data) 0 data.length
      = .ok data := by
  constructor
  · exact decodeRange_encodeFile codec chunkSize loc data s e hse he
  · have := decodeRange_encodeFile codec chunkSize loc data 0 data.length
      (Nat.zero_le _) (Nat.le_refl _)
    rw [this, List.drop_zero, Nat.sub_zero, List.take_length]

/-- Witness for C1 at a concrete input: ten bytes, chunk size three, both
hypotheses discharged at `s = 2`, `e = 7`. -/
theorem c1_decode_encode_roundtrip_witness :
    decodeRange idCodec
        (encodeFile idCodec 3 .start [10, 11, 12, 13, 14, 15, 16, 17, 18, 19]) 2 7
      = .ok [12, 13, 14, 15, 16] := by
  have h := c1_decode_encode_roundtrip idCodec 3 .start
    [10, 11, 12, 13, 14, 15, 16, 17, 18, 19] 2 7 (by omega) (by decide)
  rw [h.1]
  rfl

/-- C5: every file produced by the encoder has DOffset-contiguous, strictly
increasing index entries that exactly cover `[0, TotalDSize)` with no gaps,
and whose chunks are pairwise non-overlapping in DSpace; the reader accepts
the file and returns exactly those entries. -/
theorem c5_encoder_index_invariant (codec : Codec) (chunkSize : Nat)
    (loc : IndexLocation) (data : List Nat) :
    readIndex (encodeFile codec chunkSize loc data)
      = .ok (encEntries codec chunkSize loc data) ∧
    contig (encEntries codec chunkSize loc data) 0 data.length ∧
    dTotal (encEntries codec chunkSize loc data) = data.length ∧
    (encEntries codec chunkSize loc data).Pairwise
      (fun x y => x.dOffset + x.dLength ≤ y.dOffset) ∧
    (encEntries codec chunkSize loc data).Pairwise
      (fun x y => x.dOffset < y.dOffset) :=
  ⟨readIndex_encodeFile codec chunkSize loc data,
   encEntries_contig codec chunkSize loc data,
   dTotal_encEntries codec chunkSize loc data,
   contig_pairwise_disjoint _ 0 data.length
     (encEntries_contig codec chunkSize loc data),
   contig_pairwise_lt _ 0 data.length
     (encEntries_contig codec chunkSize loc data)⟩

/-- C4: any index failing the IndexReader validation (entries not
DOffset-contiguous from zero, not strictly increasing, or with declared
lengths overflowing the file's extent) is rejected with a FormatError, and
every decode over such a file fails with a FormatError — the decoder is a
total function that never returns bytes for such a file. -/
theorem c4_corrupt_index_rejected (codec : Codec) (es : List IndexEntry)
    (payload : List Nat) (loc : IndexLocation)
    (hbad : okEntries es 0 (3 + (4 * es.length + payload.length)) = false) :
    readIndex (mkFile es payload loc) = .error .formatError ∧
    ∀ s e, decodeRange codec (mkFile es payload loc) s e
      = .error .formatError := by
  have hr : readIndex (mkFile es payload loc) = .error .formatError := by
    rw [readIndex_mkFile, if_neg (by rw [hbad]; simp)]
  refine ⟨hr, fun s e => ?_⟩
  unfold decodeRange
  rw [decodeRangeTraced_error codec _ s e _ hr]

/-- Witness for C4: two swapped entries (DOffsets 3 then 0) fail validation
and every decode of the assembled file reports a FormatError. -/
theorem c4_corrupt_index_rejected_witness :
    decodeRange idCodec
        (mkFile [⟨3, 3, 22, 3⟩, ⟨0, 3, 19, 3⟩] [0, 1, 2, 3, 4, 5] .start) 0 2
      = .error .formatError :=
  (c4_corrupt_index_rejected idCodec [⟨3, 3, 22, 3⟩, ⟨0, 3, 19, 3⟩]
    [0, 1, 2, 3, 4, 5] .start (by decide)).2 0 2

/-- C6: a decode request whose DSpace range has `s > e` or an endpoint beyond
TotalDSize fails with a RangeError before any decode work, performing zero
chunk fetches. -/
theorem c6_invalid_range_rejected (codec : Codec) (file : List Nat)
    (s e : Nat) (es : List IndexEntry) (hread : readIndex file = .ok es)
    (hbad : s > e ∨ e > dTotal es) :
    decodeRangeTraced codec file s e = (.error .rangeError, 0) := by
  rw [decodeRangeTraced_ok codec file s e es hread, if_pos hbad]

/-- Witness for C6: on a concrete encoded file, the reversed range `[7, 3)`
is rejected with a RangeError and no chunk is fetched. -/
theorem c6_invalid_range_rejected_witness :
    decodeRangeTraced idCodec
        (encodeFile idCodec 3 .start [10, 11, 12, 13, 14, 15, 16, 17, 18, 19]) 7 3
      = (.error .rangeError, 0) :=
  c6_invalid_range_rejected idCodec _ 7 3
    [⟨0, 3, 19, 3⟩, ⟨3, 3, 22, 3⟩, ⟨6, 3, 25, 3⟩, ⟨9, 1, 28, 1⟩]
    (by rfl) (by decide)

/-- C7: an empty request range `s == e` (with `s` within bounds) succeeds:
the RangeResolver returns an empty chunk list, zero output bytes are
produced, and no error is reported. -/
theorem c7_empty_range_succeeds (codec : Codec) (file : List Nat) (s : Nat)
    (es : List IndexEntry) (hread : readIndex file = .ok es)
    (hs : s ≤ dTotal es) :
    decodeRange codec file s s = .ok [] ∧
    resolveRange es s s = [] ∧
    (decodeRangeTraced codec file s s).2 = 0 := by
  have h := decodeRangeTraced_ok codec file s s es hread
  rw [if_neg (by omega), resolveRange_self] at h
  refine ⟨?_, resolveRange_self es s, ?_⟩
  · unfold decodeRange
    rw [h]
    rfl
  · rw [h]
    rfl

/-- Witness for C7: an empty range at offset 4 of a concrete encoded file
decodes to zero bytes without error. -/
theorem c7_empty_range_succeeds_witness :
    decodeRange idCodec
        (encodeFile idCodec 3 .start [10, 11, 12, 13, 14, 15, 16, 17, 18, 19]) 4 4
      = .ok [] :=
  (c7_empty_range_succeeds idCodec _ 4
    [⟨0, 3, 19, 3⟩, ⟨3, 3, 22, 3⟩, ⟨6, 3, 25, 3⟩, ⟨9, 1, 28, 1⟩]
    (by rfl) (by decide)).1

/-- C8: encoding the same input with index placement "start" and "end"
yields files that decode identically on every requested range, although the
two files themselves differ (their header layouts differ). -/
theorem c8_index_placement_equivalent (codec : Codec) (chunkSize : Nat)
    (data : List Nat) (s e : Nat) :
    decodeRange codec (encodeFile codec chunkSize .start data) s e
      = decodeRange codec (encodeFile codec chunkSize .atEnd data) s e ∧
    encodeFile codec chunkSize .start data
      ≠ encodeFile codec chunkSize .atEnd data := by
  constructor
  · by_cases hval : s ≤ e ∧ e ≤ data.length
    · rw [decodeRange_encodeFile codec chunkSize .start data s e hval.1 hval.2,
        decodeRange_encodeFile codec chunkSize .atEnd data s e hval.1 hval.2]
    · have hbad : s > e ∨ e > data.length := by
        rcases Nat.lt_or_ge e s with h1 | h1
        · left; omega
        · right
          rcases Nat.lt_or_ge data.length e with h2 | h2
          · exact h2
          · exact absurd ⟨h1, h2⟩ hval
      unfold decodeRange
      rw [decodeRangeTraced_ok codec _ s e _
          (readIndex_encodeFile codec chunkSize .start data),
        decodeRangeTraced_ok codec _ s e _
          (readIndex_encodeFile codec chunkSize .atEnd data)]
      rw [if_pos (by rw [dTotal_encEntries]; exact hbad),
        if_pos (by rw [dTotal_encEntries]; exact hbad)]
  · intro hcontra
    have h1 : encodeFile codec chunkSize .start data
        = racMagic :: (encEntries codec chunkSize .start data).length :: 0 ::
          (serializeIndex (encEntries codec chunkSize .start data)
            ++ (encChunks codec chunkSize data).2) := rfl
    have h2 : encodeFile codec chunkSize .atEnd data
        = racMagic :: (encEntries codec chunkSize .atEnd data).length :: 1 ::
          ((encChunks codec chunkSize data).2
            ++ serializeIndex (encEntries codec chunkSize .atEnd data)) := rfl
    rw [h1, h2] at hcontra
    simp at hcontra

/-- Modelled from the spec: the parallel DecodeScheduler's coordinator state
(section 4.6) — a holding area of completed-but-not-yet-emitted chunk results
keyed by chunk sequence index, the next expected sequence index, and the
chunk results emitted so far in order. -/
structure SchedState where
  held : List (Nat × List Nat)
  next : Nat
  out : List (List Nat)

/-- Modelled from the spec: the coordinator's drain loop — emit the next
expected chunk repeatedly while it is present in the holding area.  `fuel`
bounds the number of emissions; callers supply the holding area's size. -/
def drainStep : Nat → List (Nat × List Nat) → Nat →
    List (Nat × List Nat) × Nat × List (List Nat)
  | 0, held, next => (held, next, [])
  | fuel + 1, held, next =>
    match held.lookup next with
    | none => (held, next, [])
    | some r =>
      let d := drainStep fuel (held.filter (fun p => decide (p.1 ≠ next))) (next + 1)
      (d.1, d.2.1, r :: d.2.2)

/-- Modelled from the spec: drain with enough fuel to empty the holding
area. -/
def drain (held : List (Nat × List Nat)) (next : Nat) :
    List (Nat × List Nat) × Nat × List (List Nat) :=
  drainStep held.length held next

/-- Modelled from the spec: the coordinator's reaction to one completed chunk
result — admit it to the holding area, then drain opportunistically, emitting
in strictly increasing sequence order. -/
def schedStep (st : SchedState) (c : Nat × List Nat) : SchedState :=
  let d := drain (c :: st.held) st.next
  ⟨d.1, d.2.1, st.out ++ d.2.2⟩

/-- Modelled from the spec: run the reorder protocol over the chunk results
in their completion order. -/
def runSched (completions : List (Nat × List Nat)) : SchedState :=
  completions.foldl schedStep ⟨[], 0, []⟩

/-- Collect a list of per-chunk results, stopping at the first error — every
parallel task runs, and any chunk failure aborts the whole request. -/
def seqExcept : List (Except RacError (List Nat)) → Except RacError (List (List Nat))
  | [] => .ok []
  | .error er :: _ => .error er
  | .ok x :: rest => (seqExcept rest).map (fun ls => x :: ls)

/-- Modelled from the spec: parallel-mode decode of a resolved chunk list
(section 4.6) — every chunk decode task runs independently, results complete
in the order given by `order`, and the coordinator reassembles them in
sequence order. -/
def parDecodeChunks (codec : Codec) (file : List Nat) (s e : Nat)
    (chunks : List IndexEntry) (order : List Nat) : Except RacError (List Nat) :=
  match seqExcept (chunks.map (decodeChunk codec file s e)) with
  | .error er => .error er
  | .ok results =>
    .ok ((runSched (order.map (fun i => (i, results.getD i [])))).out).flatten

/-- Modelled from the spec: the full parallel-mode decode pipeline — same
index read and range validation as single-threaded mode, then the parallel
scheduler over the resolved chunks. -/
def parDecodeRange (codec : Codec) (file : List Nat) (s e : Nat)
    (order : List Nat) : Except RacError (List Nat) :=
  match readIndex file with
  | .error er => .error er
  | .ok es =>
    if s > e ∨ e > dTotal es then .error .rangeError
    else parDecodeChunks codec file s e (resolveRange es s e) order

lemma lookup_eq_none_iff (l : List (Nat × List Nat)) (a : Nat) :
    l.lookup a = none ↔ a ∉ l.map Prod.fst := by
  induction l with
  | nil => simp [List.lookup]
  | cons p rest ih =>
    rw [show List.lookup a (p :: rest)
        = match a == p.1 with
          | true => some p.2
          | false => List.lookup a rest from rfl]
    by_cases h : a = p.1
    · subst h
      simp
    · rw [show (a == p.1) = false by simpa using h]
      simpa [h] using ih

lemma lookup_mem (l : List (Nat × List Nat)) (a : Nat) (b : List Nat)
    (h : l.lookup a = some b) : (a, b) ∈ l := by
  induction l with
  | nil => simp [List.lookup] at h
  | cons p rest ih =>
    rw [show List.lookup a (p :: rest)
        = match a == p.1 with
          | true => some p.2
          | false => List.lookup a rest from rfl] at h
    by_cases hq : a = p.1
    · rw [show (a == p.1) = true by simpa using hq] at h
      injection h with h2
      rw [hq, ← h2]
      exact List.mem_cons_self _ _
    · rw [show (a == p.1) = false by simpa using hq] at h
      exact List.mem_cons_of_mem p (ih h)

lemma length_filter_ne_lt (l : List (Nat × List Nat)) (a : Nat) (b : List Nat)
    (h : (a, b) ∈ l) :
    (l.filter (fun p => decide (p.1 ≠ a))).length < l.length := by
  induction l with
  | nil => cases h
  | cons p rest ih =>
    rw [List.filter_cons]
    rcases List.mem_cons.mp h with h1 | h1
    · subst h1
      rw [if_neg (by simp)]
      have := List.length_filter_le (fun p : Nat × List Nat => decide (p.1 ≠ a)) rest
      simp only [List.length_cons]
      omega
    · by_cases hp : p.1 ≠ a
      · rw [if_pos (by simpa using hp)]
        have := ih h1
        simp only [List.length_cons]
        omega
      · rw [if_neg (by simpa using hp)]
        have := ih h1
        simp only [List.length_cons]
        omega

lemma map_fst_filter (l : List (Nat × List Nat))
    (pred : Nat × List Nat → Bool) (q : Nat → Bool)
    (hpq : ∀ p, pred p = q p.1) :
    (l.filter pred).map Prod.fst = (l.map Prod.fst).filter q := by
  induction l with
  | nil => rfl
  | cons p rest ih =>
    by_cases hq : q p.1 <;> simp [List.filter_cons, hpq, hq, ih]

/-- Drain-loop specification: with enough fuel, a nodup-keyed holding area of
results of `f`, drained from `next`, emits exactly the maximal contiguous run
`f next, f (next+1), …` present in the area, removes those keys, and stops at
the first missing sequence index. -/
lemma drainStep_spec (f : Nat → List Nat) :
    ∀ fuel held next, held.length ≤ fuel →
      (held.map Prod.fst).Nodup →
      (∀ p ∈ held, p.2 = f p.1) →
      ∃ m,
        drainStep fuel held next
          = (held.filter (fun p => decide (p.1 < next ∨ next + m ≤ p.1)),
             next + m,
             (List.range' next m).map f) ∧
        (∀ k, next ≤ k → k < next + m → k ∈ held.map Prod.fst) ∧
        (next + m) ∉ held.map Prod.fst := by
  intro fuel
  induction fuel with
  | zero =>
    intro held next hlen hnodup hval
    have hheld : held = [] := List.length_eq_zero.mp (Nat.le_zero.mp hlen)
    subst hheld
    refine ⟨0, by simp [drainStep], ?_, by simp⟩
    intro k h1 h2
    omega
  | succ fuel ih =>
    intro held next hlen hnodup hval
    have hstep : drainStep (fuel + 1) held next
        = match held.lookup next with
          | none => (held, next, [])
          | some r =>
            let d := drainStep fuel
              (held.filter (fun p => decide (p.1 ≠ next))) (next + 1)
            (d.1, d.2.1, r :: d.2.2) := rfl
    cases hl : held.lookup next with
    | none =>
      have hfil : held.filter (fun p => decide (p.1 < next ∨ next + 0 ≤ p.1))
          = held := by
        apply List.filter_eq_self.mpr
        intro p hp
        simp only [decide_eq_true_eq]
        omega
      refine ⟨0, ?_, ?_, ?_⟩
      · rw [hstep, hl, hfil]
        rfl
      · intro k h1 h2
        omega
      · rw [Nat.add_zero]
        exact (lookup_eq_none_iff held next).mp hl
    | some r =>
      have hmem : (next, r) ∈ held := lookup_mem held next r hl
      have hr : r = f next := hval (next, r) hmem
      have hlen' : (held.filter (fun p => decide (p.1 ≠ next))).length ≤ fuel := by
        have := length_filter_ne_lt held next r hmem
        omega
      have hnodup' :
          ((held.filter (fun p => decide (p.1 ≠ next))).map Prod.fst).Nodup := by
        rw [map_fst_filter held _ (fun k => decide (k ≠ next)) (fun _ => rfl)]
        exact hnodup.filter _
      have hval' : ∀ p ∈ held.filter (fun p => decide (p.1 ≠ next)), p.2 = f p.1 :=
        fun p hp => hval p (List.mem_of_mem_filter hp)
      obtain ⟨m', heq', hcover', hnotin'⟩ :=
        ih (held.filter (fun p => decide (p.1 ≠ next))) (next + 1) hlen' hnodup' hval'
      refine ⟨m' + 1, ?_, ?_, ?_⟩
      · rw [hstep, hl]
        show ((drainStep fuel (held.filter (fun p => decide (p.1 ≠ next))) (next + 1)).1,
              (drainStep fuel (held.filter (fun p => decide (p.1 ≠ next))) (next + 1)).2.1,
              r :: (drainStep fuel (held.filter (fun p => decide (p.1 ≠ next))) (next + 1)).2.2)
            = _
        rw [heq']
        have f1 : (held.filter (fun p => decide (p.1 ≠ next))).filter
              (fun p => decide (p.1 < next + 1 ∨ next + 1 + m' ≤ p.1))
            = held.filter (fun p => decide (p.1 < next ∨ next + (m' + 1) ≤ p.1)) := by
          rw [List.filter_filter]
          refine List.filter_congr ?_
          intro p _
          rw [← Bool.decide_and]
          exact decide_eq_decide.mpr (by omega)
        have f2 : next + 1 + m' = next + (m' + 1) := by omega
        have f3 : r :: (List.range' (next + 1) m').map f
            = (List.range' next (m' + 1)).map f := by
          rw [show List.range' next (m' + 1) = next :: List.range' (next + 1) m'
            from rfl]
          rw [List.map_cons, hr]
        rw [f1, f2, f3]
      · intro k h1 h2
        by_cases hk : k = next
        · subst hk
          exact List.mem_map_of_mem Prod.fst hmem
        · have hge : next + 1 ≤ k := by omega
          have hlt : k < next + 1 + m' := by omega
          have hmk := hcover' k hge hlt
          rw [map_fst_filter held _ (fun j => decide (j ≠ next)) (fun _ => rfl)]
            at hmk
          exact List.mem_of_mem_filter hmk
      · intro hin
        obtain ⟨p, hp, hpk⟩ := List.mem_map.mp hin
        have hpne : p.1 ≠ next := by omega
        have hpf : p ∈ held.filter (fun p => decide (p.1 ≠ next)) :=
          List.mem_filter.mpr ⟨hp, by simpa using hpne⟩
        have : next + 1 + m' ∈ (held.filter
            (fun p => decide (p.1 ≠ next))).map Prod.fst := by
          refine List.mem_map.mpr ⟨p, hpf, ?_⟩
          omega
        exact hnotin' this

lemma range_add_range' (a b : Nat) :
    List.range (a + b) = List.range a ++ List.range' a b := by
  rw [List.range_eq_range', List.range_eq_range']
  have h := List.range'_append 0 a b 1
  simp only [Nat.one_mul, Nat.zero_add, Nat.mul_one] at h
  rw [h, Nat.add_comm a b]

/-- Invariant of the reorder protocol once the sequence indices in `ps` have
completed: the holding area holds exactly the completed indices at or past
the cursor, the output is the in-order prefix of results below the cursor,
and the cursor is the least incomplete index. -/
def SchedInv (f : Nat → List Nat) (ps : List Nat) (st : SchedState) : Prop :=
  (st.held.map Prod.fst).Perm (ps.filter (fun i => decide (st.next ≤ i))) ∧
  (∀ p ∈ st.held, p.2 = f p.1) ∧
  st.out = (List.range st.next).map f ∧
  (∀ i, i < st.next → i ∈ ps) ∧
  st.next ∉ ps ∧
  ps.Nodup

lemma schedStep_inv (f : Nat → List Nat) (ps : List Nat) (st : SchedState)
    (j : Nat) (hInv : SchedInv f ps st) (hj : j ∉ ps) :
    SchedInv f (j :: ps) (schedStep st (j, f j)) := by
  obtain ⟨hperm, hval, hout, hlow, hnext, hnodup⟩ := hInv
  have hjge : st.next ≤ j := by
    by_contra hlt
    push_neg at hlt
    exact hj (hlow j hlt)
  have hkeys_nodup : (st.held.map Prod.fst).Nodup :=
    hperm.symm.nodup (hnodup.filter _)
  have hjnotin : j ∉ st.held.map Prod.fst := by
    intro hin
    exact hj (List.mem_of_mem_filter (hperm.mem_iff.mp hin))
  have hnodup1 : (((j, f j) :: st.held).map Prod.fst).Nodup := by
    rw [List.map_cons]
    exact List.nodup_cons.mpr ⟨hjnotin, hkeys_nodup⟩
  have hval1 : ∀ p ∈ (j, f j) :: st.held, p.2 = f p.1 := by
    intro p hp
    rcases List.mem_cons.mp hp with h | h
    · rw [h]
    · exact hval p h
  obtain ⟨m, heq, hcover, hnotin⟩ :=
    drainStep_spec f ((j, f j) :: st.held).length ((j, f j) :: st.held) st.next
      (Nat.le_refl _) hnodup1 hval1
  have hsched : schedStep st (j, f j)
      = ⟨((j, f j) :: st.held).filter
            (fun p => decide (p.1 < st.next ∨ st.next + m ≤ p.1)),
         st.next + m,
         st.out ++ (List.range' st.next m).map f⟩ := by
    unfold schedStep drain
    rw [heq]
  rw [hsched]
  unfold SchedInv
  dsimp only
  refine ⟨?_, ?_, ?_, ?_, ?_, ?_⟩
  · show ((((j, f j) :: st.held).filter
        (fun p => decide (p.1 < st.next ∨ st.next + m ≤ p.1))).map Prod.fst).Perm
      ((j :: ps).filter (fun i => decide (st.next + m ≤ i)))
    rw [map_fst_filter _ _
      (fun k => decide (k < st.next ∨ st.next + m ≤ k)) (fun _ => rfl)]
    rw [List.map_cons]
    rw [List.filter_cons, List.filter_cons]
    have htail : ((st.held.map Prod.fst).filter
          (fun k => decide (k < st.next ∨ st.next + m ≤ k))).Perm
        (ps.filter (fun i => decide (st.next + m ≤ i))) := by
      have h1 := hperm.filter (fun k => decide (k < st.next ∨ st.next + m ≤ k))
      rw [List.filter_filter] at h1
      have h2 : ps.filter (fun a => decide (a < st.next ∨ st.next + m ≤ a)
            && decide (st.next ≤ a))
          = ps.filter (fun i => decide (st.next + m ≤ i)) := by
        refine List.filter_congr ?_
        intro a _
        rw [← Bool.decide_and]
        exact decide_eq_decide.mpr (by omega)
      rw [h2] at h1
      exact h1
    by_cases hc : st.next + m ≤ j
    · rw [if_pos (by simp only [decide_eq_true_eq]; omega),
        if_pos (by simpa using hc)]
      exact htail.cons j
    · rw [if_neg (by simp only [decide_eq_true_eq]; omega),
        if_neg (by simpa using hc)]
      exact htail
  · intro p hp
    exact hval1 p (List.mem_of_mem_filter hp)
  · show st.out ++ (List.range' st.next m).map f = (List.range (st.next + m)).map f
    rw [hout, range_add_range', List.map_append]
  · intro i hi
    rcases Nat.lt_or_ge i st.next with h | h
    · exact List.mem_cons_of_mem j (hlow i h)
    · have := hcover i h hi
      rw [List.map_cons] at this
      rcases List.mem_cons.mp this with h2 | h2
      · rw [h2]
        exact List.mem_cons_self _ _
      · exact List.mem_cons_of_mem j
          (List.mem_of_mem_filter (hperm.mem_iff.mp h2))
  · intro hin
    rcases List.mem_cons.mp hin with h2 | h2
    · apply hnotin
      rw [List.map_cons, h2]
      exact List.mem_cons_self _ _
    · apply hnotin
      rw [List.map_cons]
      refine List.mem_cons_of_mem j (hperm.symm.mem_iff.mp ?_)
      exact List.mem_filter.mpr ⟨h2, by simp⟩
  · exact List.nodup_cons.mpr ⟨hj, hnodup⟩

lemma schedInv_init (f : Nat → List Nat) : SchedInv f [] ⟨[], 0, []⟩ := by
  unfold SchedInv
  dsimp only
  refine ⟨by simp, by simp, by simp, ?_, by simp, List.nodup_nil⟩
  intro i hi
  exact absurd hi (Nat.not_lt_zero i)

lemma runSched_inv (f : Nat → List Nat) :
    ∀ (order ps : List Nat) (st : SchedState),
      SchedInv f ps st → (∀ j ∈ order, j ∉ ps) → order.Nodup →
      ∃ psF, (∀ i, i ∈ psF ↔ i ∈ order ∨ i ∈ ps) ∧
        SchedInv f psF (order.foldl (fun s i => schedStep s (i, f i)) st) := by
  intro order
  induction order with
  | nil =>
    intro ps st hInv _ _
    exact ⟨ps, fun i => by simp, hInv⟩
  | cons j rest ih =>
    intro ps st hInv hdisj hnodup
    have hnd := List.nodup_cons.mp hnodup
    have hstep := schedStep_inv f ps st j hInv (hdisj j (List.mem_cons_self j rest))
    obtain ⟨psF, hmem, hfin⟩ := ih (j :: ps) (schedStep st (j, f j)) hstep
      (fun k hk hin => by
        rcases List.mem_cons.mp hin with h | h
        · exact hnd.1 (h ▸ hk)
        · exact hdisj k (List.mem_cons_of_mem j hk) h)
      hnd.2
    refine ⟨psF, ?_, hfin⟩
    intro i
    rw [hmem i]
    simp only [List.mem_cons]
    tauto

/-- Scheduler correctness: regardless of the completion order (any
permutation of the chunk sequence indices), the reorder protocol emits the
per-chunk results in exact sequence order. -/
lemma runSched_perm (f : Nat → List Nat) (n : Nat) (order : List Nat)
    (h : order.Perm (List.range n)) :
    (runSched (order.map (fun i => (i, f i)))).out = (List.range n).map f := by
  have hnodup : order.Nodup := h.symm.nodup (List.nodup_range n)
  unfold runSched
  rw [List.foldl_map]
  obtain ⟨psF, hmem, hfin⟩ := runSched_inv f order [] ⟨[], 0, []⟩
    (schedInv_init f) (by simp) hnodup
  obtain ⟨hperm, hval, hout, hlow, hnext, hnodupF⟩ := hfin
  have hmem2 : ∀ i, i ∈ psF ↔ i < n := by
    intro i
    rw [hmem i]
    simp [h.mem_iff, List.mem_range]
  have h1 : ¬ ((order.foldl (fun s i => schedStep s (i, f i))
      ⟨[], 0, []⟩).next < n) :=
    fun hlt => hnext ((hmem2 _).mpr hlt)
  have h2 : ¬ (n < (order.foldl (fun s i => schedStep s (i, f i))
      ⟨[], 0, []⟩).next) := by
    intro hlt
    exact absurd ((hmem2 n).mp (hlow n hlt)) (lt_irrefl n)
  have hn : (order.foldl (fun s i => schedStep s (i, f i)) ⟨[], 0, []⟩).next
      = n := by omega
  rw [hout, hn]

lemma exMap_map {α β γ : Type} (x : Except RacError α) (g : α → β) (h : β → γ) :
    (x.map g).map h = x.map (fun a => h (g a)) := by
  cases x <;> rfl

lemma getD_map_range (l : List (List Nat)) :
    (List.range l.length).map (fun i => l.getD i []) = l := by
  induction l with
  | nil => rfl
  | cons x t ih =>
    rw [show (x :: t).length = t.length + 1 from rfl, List.range_succ_eq_map]
    rw [List.map_cons, List.map_map]
    show x :: (List.range t.length).map (fun i => t.getD i []) = x :: t
    rw [ih]

lemma decodeChunksSeq_cons_error (codec : Codec) (file : List Nat) (s e : Nat)
    (c : IndexEntry) (l : List IndexEntry) (er : RacError)
    (h : decodeChunk codec file s e c = .error er) :
    decodeChunksSeq codec file s e (c :: l) = (.error er, 1) := by
  have heq : decodeChunksSeq codec file s e (c :: l)
      = match decodeChunk codec file s e c with
        | .error er => (.error er, 1)
        | .ok bs =>
          ((decodeChunksSeq codec file s e l).1.map (fun tail => bs ++ tail),
           (decodeChunksSeq codec file s e l).2 + 1) := rfl
  rw [heq, h]

lemma decodeChunksSeq_eq_seqExcept (codec : Codec) (file : List Nat)
    (s e : Nat) :
    ∀ l, (decodeChunksSeq codec file s e l).1
      = (seqExcept (l.map (decodeChunk codec file s e))).map List.flatten := by
  intro l
  induction l with
  | nil => rfl
  | cons c rest ih =>
    rw [List.map_cons]
    cases hc : decodeChunk codec file s e c with
    | error er =>
      rw [decodeChunksSeq_cons_error codec file s e c rest er hc]
      rfl
    | ok bs =>
      rw [decodeChunksSeq_cons_ok codec file s e c rest bs hc]
      show (decodeChunksSeq codec file s e rest).1.map (fun tail => bs ++ tail) = _
      rw [ih]
      rw [show seqExcept (Except.ok bs :: rest.map (decodeChunk codec file s e))
          = (seqExcept (rest.map (decodeChunk codec file s e))).map
              (fun ls => bs :: ls) from rfl]
      rw [exMap_map, exMap_map]
      rfl

lemma seqExcept_length :
    ∀ (l : List (Except RacError (List Nat))) (results : List (List Nat)),
      seqExcept l = .ok results → results.length = l.length := by
  intro l
  induction l with
  | nil =>
    intro r h
    cases h
    rfl
  | cons x rest ih =>
    intro r h
    cases x with
    | error er =>
      rw [show seqExcept (.error er :: rest) = .error er from rfl] at h
      cases h
    | ok bs =>
      rw [show seqExcept (.ok bs :: rest)
          = (seqExcept rest).map (fun ls => bs :: ls) from rfl] at h
      cases hs : seqExcept rest with
      | error er =>
        rw [hs] at h
        cases h
      | ok rs =>
        rw [hs] at h
        simp only [Except.map] at h
        cases h
        have := ih rs hs
        simp only [List.length_cons, this]

lemma parDecodeChunks_eq (codec : Codec) (file : List Nat) (s e : Nat)
    (chunks : List IndexEntry) (order : List Nat)
    (hperm : order.Perm (List.range chunks.length)) :
    parDecodeChunks codec file s e chunks order
      = (decodeChunksSeq codec file s e chunks).1 := by
  rw [decodeChunksSeq_eq_seqExcept]
  unfold parDecodeChunks
  cases hs : seqExcept (chunks.map (decodeChunk codec file s e)) with
  | error er => rfl
  | ok results =>
    have hlen : results.length = chunks.length := by
      have h1 := seqExcept_length _ results hs
      rw [List.length_map] at h1
      exact h1
    show Except.ok ((runSched (order.map
        (fun i => (i, results.getD i [])))).out).flatten = _
    have hperm2 : order.Perm (List.range results.length) := by
      rw [hlen]
      exact hperm
    rw [runSched_perm (fun i => results.getD i []) results.length order hperm2]
    rw [getD_map_range]
    rfl

lemma parDecodeRange_ok (codec : Codec) (file : List Nat) (s e : Nat)
    (order : List Nat) (es : List IndexEntry) (h : readIndex file = .ok es) :
    parDecodeRange codec file s e order
      = if s > e ∨ e > dTotal es then .error .rangeError
        else parDecodeChunks codec file s e (resolveRange es s e) order := by
  unfold parDecodeRange
  rw [h]

lemma readIndex_ok_valid (file : List Nat) (es : List IndexEntry)
    (h : readIndex file = .ok es) :
    ∃ cext, okEntries es 0 cext = true := by
  rcases file with _ | ⟨a, _ | ⟨b, _ | ⟨c, rest⟩⟩⟩
  · exact Except.noConfusion h
  · exact Except.noConfusion h
  · exact Except.noConfusion h
  · simp only [readIndex] at h
    split_ifs at h with h1 h2 h3 h4 h5 h6
    all_goals first
      | exact Except.noConfusion h
      | (injection h with h2
         subst h2
         exact ⟨3 + rest.length, by assumption⟩)

/-- C2: on a valid RAC file, parallel-mode decode produces byte-identical
output to single-threaded decode for every completion order of the chunk
decode tasks (any permutation of the chunk sequence indices), and the
resolved chunks — hence the emitted chunk results — are in strictly
increasing DSpace order. -/
theorem c2_parallel_equals_sequential (codec : Codec) (file : List Nat)
    (s e : Nat) (es : List IndexEntry) (order : List Nat)
    (hread : readIndex file = .ok es)
    (hperm : order.Perm (List.range (resolveRange es s e).length)) :
    parDecodeRange codec file s e order = decodeRange codec file s e ∧
    (resolveRange es s e).Pairwise (fun a b => a.dOffset < b.dOffset) := by
  constructor
  · rw [parDecodeRange_ok codec file s e order es hread]
    unfold decodeRange
    rw [decodeRangeTraced_ok codec file s e es hread]
    by_cases hcond : s > e ∨ e > dTotal es
    · rw [if_pos hcond, if_pos hcond]
    · rw [if_neg hcond, if_neg hcond]
      exact parDecodeChunks_eq codec file s e (resolveRange es s e) order hperm
  · obtain ⟨cext, hok⟩ := readIndex_ok_valid file es hread
    have hcontig := ((okEntries_iff es 0 cext).mp hok).1
    have hpw := contig_pairwise_lt es 0 (0 + dTotal es) hcontig
    exact hpw.filter _

/-- Witness for C2: a four-chunk file decoded over its full range with the
out-of-order completion sequence 2, 0, 3, 1 produces the same bytes as the
single-threaded decode. -/
theorem c2_parallel_equals_sequential_witness :
    parDecodeRange idCodec
        (encodeFile idCodec 3 .start [10, 11, 12, 13, 14, 15, 16, 17, 18, 19])
        0 10 [2, 0, 3, 1]
      = decodeRange idCodec
          (encodeFile idCodec 3 .start [10, 11, 12, 13, 14, 15, 16, 17, 18, 19])
          0 10 :=
  (c2_parallel_equals_sequential idCodec _ 0 10
    [⟨0, 3, 19, 3⟩, ⟨3, 3, 22, 3⟩, ⟨6, 3, 25, 3⟩, ⟨9, 1, 28, 1⟩]
    [2, 0, 3, 1] (by rfl) (by decide)).1

/-- Modelled from the spec: the codecs of the design (usage text: lz4, zlib,
zstd). -/
inductive CodecID where
  | lz4
  | zlib
  | zstd
deriving Repr, DecidableEq

/-- Modelled from the spec: static capability flag — CSpace-targeted chunk
sizing is fully supported by only one codec (per the usage text, only zlib is
fully supported; the others do not support a CSpace chunk-size target). -/
def supportsCChunkSize : CodecID → Bool
  | .zlib => true
  | _ => false

/-- Modelled from the spec: how the chunk-size target was requested — DSpace
sizing, CSpace sizing explicitly demanded by the caller, or CSpace sizing as
a non-binding preference (section 4.1 distinguishes an explicit demand,
rejected on unsupported codecs, from a silent fallback). -/
inductive ChunkSizing where
  | dspace (size : Nat)
  | cspaceExplicit (size : Nat)
  | cspacePreferred (size : Nat)
deriving Repr, DecidableEq

/-- Modelled from the spec: one explicit encode configuration value (spec
section 9: flags are translated into one configuration passed into the
encode entry point). -/
structure EncodeConfig where
  codec : CodecID
  sizing : ChunkSizing
  indexLoc : IndexLocation
deriving Repr, DecidableEq

/-- Modelled from the spec: encode under a configuration (sections 4.1 and
7).  An explicit demand for CSpace sizing on a codec lacking the capability
is rejected with a ConfigError before any chunk is compressed; a non-binding
CSpace preference on such a codec silently falls back to fixed DSpace-sized
chunks of the default size.  The one codec supporting CSpace sizing adapts
chunk sizes to the CSpace target; the spec fixes no particular adaptation
algorithm, so its chunk plan is represented by the fixed-size plan at the
requested target. -/
def encodeWithConfig (impl : Codec) (cfg : EncodeConfig) (data : List Nat) :
    Except RacError (List Nat) :=
  match cfg.sizing with
  | .dspace sz => .ok (encodeFile impl sz cfg.indexLoc data)
  | .cspaceExplicit sz =>
    if supportsCChunkSize cfg.codec then .ok (encodeFile impl sz cfg.indexLoc data)
    else .error .configError
  | .cspacePreferred sz =>
    if supportsCChunkSize cfg.codec then .ok (encodeFile impl sz cfg.indexLoc data)
    else .ok (encodeFile impl 0 cfg.indexLoc data)

/-- C3: CSpace-targeted chunk sizing is supported by exactly one codec
(zlib); explicitly demanding it on any other codec fails with a ConfigError —
for every codec implementation, so no chunk is ever compressed and nothing is
produced; and a non-binding CSpace preference on an unsupported codec
silently falls back to the fixed default DSpace-sized chunk plan. -/
theorem c3_cspace_sizing_capability (cfg : EncodeConfig) (data : List Nat)
    (sz : Nat) :
    (∀ c, supportsCChunkSize c = true ↔ c = .zlib) ∧
    (cfg.sizing = .cspaceExplicit sz → supportsCChunkSize cfg.codec = false →
      ∀ impl : Codec, encodeWithConfig impl cfg data = .error .configError) ∧
    (cfg.sizing = .cspacePreferred sz → supportsCChunkSize cfg.codec = false →
      ∀ impl : Codec, encodeWithConfig impl cfg data
        = .ok (encodeFile impl 0 cfg.indexLoc data)) := by
  refine ⟨?_, ?_, ?_⟩
  · intro c
    cases c <;> simp [supportsCChunkSize]
  · intro hs hc impl
    unfold encodeWithConfig
    rw [hs]
    simp [hc]
  · intro hs hc impl
    unfold encodeWithConfig
    rw [hs]
    simp [hc]

/-- Witness for C3: explicitly demanding CSpace sizing with the zstd codec is
rejected with a ConfigError. -/
theorem c3_cspace_sizing_capability_witness :
    encodeWithConfig idCodec ⟨.zstd, .cspaceExplicit 100, .start⟩ [1, 2, 3]
      = .error .configError :=
  (c3_cspace_sizing_capability ⟨.zstd, .cspaceExplicit 100, .start⟩
    [1, 2, 3] 100).2.1 rfl rfl idCodec

end Rac

namespace JpegBench

/-- An image value produced by the Go standard library's jpeg.Decode, as far
as the benchmark's decode function inspects it: its dynamic type, its bounds'
width and height, and, for an RGBA image, its Pix buffer. -/
inductive GoImage where
  | gray (dx dy : Nat)
  | rgba (dx dy : Nat) (pix : List Nat)
  | ycbcr (dx dy : Nat)
  | other (dx dy : Nat)
deriving Repr, DecidableEq

/-- Width of the image bounds, `b.Dx()`. -/
def GoImage.dx : GoImage → Nat
  | .gray dx _ => dx
  | .rgba dx _ _ => dx
  | .ycbcr dx _ => dx
  | .other dx _ => dx

/-- Height of the image bounds, `b.Dy()`. -/
def GoImage.dy : GoImage → Nat
  | .gray _ dy => dy
  | .rgba _ dy _ => dy
  | .ycbcr _ dy => dy
  | .other _ dy => dy

/-- One parallel swap `pix[a], pix[b] = pix[b], pix[a]`. -/
def swapAt (pix : List Nat) (a b : Nat) : List Nat :=
  (pix.set a (pix.getD b 0)).set b (pix.getD a 0)

/-- The channel-swap loop of the benchmark's decode function:
`for i, iEnd := 0, len(pix)/4; i < iEnd; i += 4`, swapping `pix[(4*i)+0]`
with `pix[(4*i)+2]`.  `fuel` bounds the iteration count; callers pass
`iEnd`, which suffices since each iteration advances `i` by four. -/
def bgraLoop : Nat → List Nat → Nat → Nat → List Nat
  | 0, pix, _, _ => pix
  | fuel + 1, pix, i, iEnd =>
    if i < iEnd then bgraLoop fuel (swapAt pix (4 * i) (4 * i + 2)) (i + 4) iEnd
    else pix

/-- The full channel-swap pass over an RGBA pix buffer. -/
def bgraConvert (pix : List Nat) : List Nat :=
  bgraLoop (pix.length / 4) pix 0 (pix.length / 4)

/-- The benchmark's decode function, embedded from the Go source.  The Go
standard library is abstracted: `res` stands for the result of jpeg.Decode
on the input, and `drawRGBA dx dy` for the Pix buffer of a freshly allocated
RGBA image of those bounds after draw.Draw from the YCbCr source.  The
result is the `(numBytes, error)` pair together with the final RGBA pix
buffer (`none` models Go's nil pix) after the RGBA to BGRA channel swap. -/
def goDecode (drawRGBA : Nat → Nat → List Nat) (res : Except String GoImage) :
    Nat × Option String × Option (List Nat) :=
  match res with
  | .error e => (0, some e, none)
  | .ok m0 =>
    let n := m0.dx * m0.dy
    let m := match m0 with
      | .ycbcr dx dy => GoImage.rgba dx dy (drawRGBA dx dy)
      | img => img
    match m with
    | .gray _ _ => (n * 1, none, none)
    | .rgba _ _ pix => (n * 4, none, some (bgraConvert pix))
    | _ => (0, some "unexpected image type", none)

/-- C9: the benchmark's decode function returns `Dx*Dy` bytes and no error on
a grayscale image, `4*Dx*Dy` bytes and no error on an RGBA or YCbCr image
(the latter drawn into a fresh RGBA image first), zero bytes and an
"unexpected image type" error on any other image type, and propagates a
jpeg.Decode failure as `(0, that error)`. -/
theorem c9_decode_result (drawRGBA : Nat → Nat → List Nat) :
    (∀ e, goDecode drawRGBA (.error e) = (0, some e, none)) ∧
    (∀ dx dy, (goDecode drawRGBA (.ok (.gray dx dy))).1 = dx * dy ∧
      (goDecode drawRGBA (.ok (.gray dx dy))).2.1 = none) ∧
    (∀ dx dy pix, (goDecode drawRGBA (.ok (.rgba dx dy pix))).1 = 4 * (dx * dy) ∧
      (goDecode drawRGBA (.ok (.rgba dx dy pix))).2.1 = none) ∧
    (∀ dx dy, (goDecode drawRGBA (.ok (.ycbcr dx dy))).1 = 4 * (dx * dy) ∧
      (goDecode drawRGBA (.ok (.ycbcr dx dy))).2.1 = none) ∧
    (∀ dx dy, (goDecode drawRGBA (.ok (.other dx dy))).1 = 0 ∧
      (goDecode drawRGBA (.ok (.other dx dy))).2.1
        = some "unexpected image type") := by
  refine ⟨fun e => rfl, fun dx dy => ⟨?_, rfl⟩, fun dx dy pix => ⟨?_, rfl⟩,
    fun dx dy => ⟨?_, rfl⟩, fun dx dy => ⟨rfl, rfl⟩⟩
  · show dx * dy * 1 = dx * dy
    rw [Nat.mul_one]
  · show dx * dy * 4 = 4 * (dx * dy)
    rw [Nat.mul_comm]
  · show dx * dy * 4 = 4 * (dx * dy)
    rw [Nat.mul_comm]

lemma getD_set_ne (l : List Nat) (m n a : Nat) (h : m ≠ n) :
    (l.set m a).getD n 0 = l.getD n 0 := by
  simp [List.getD_eq_getElem?_getD, List.getElem?_set_ne h]

lemma getD_set_self (l : List Nat) (n a : Nat) (h : n < l.length) :
    (l.set n a).getD n 0 = a := by
  simp [List.getD_eq_getElem?_getD, List.getElem?_set_eq_of_lt a h]

lemma swapAt_length (pix : List Nat) (a b : Nat) :
    (swapAt pix a b).length = pix.length := by
  unfold swapAt
  rw [List.length_set, List.length_set]

lemma swapAt_getD_ne (pix : List Nat) (a b j : Nat) (ha : a ≠ j) (hb : b ≠ j) :
    (swapAt pix a b).getD j 0 = pix.getD j 0 := by
  unfold swapAt
  rw [getD_set_ne _ _ _ _ hb, getD_set_ne _ _ _ _ ha]

/-- Loop characterization: over the suffix of iterations starting at `i`, the
loop swaps exactly the byte pairs `(4*(i+4*k), 4*(i+4*k)+2)` for the
iterations it runs, and leaves every other position unchanged. -/
lemma bgraLoop_spec :
    ∀ fuel i pix iEnd, iEnd ≤ i + fuel → 4 * iEnd ≤ pix.length →
      (bgraLoop fuel pix i iEnd).length = pix.length ∧
      (∀ k, i + 4 * k < iEnd →
        (bgraLoop fuel pix i iEnd).getD (4 * (i + 4 * k)) 0
          = pix.getD (4 * (i + 4 * k) + 2) 0 ∧
        (bgraLoop fuel pix i iEnd).getD (4 * (i + 4 * k) + 2) 0
          = pix.getD (4 * (i + 4 * k)) 0) ∧
      (∀ j, (∀ k, i + 4 * k < iEnd →
          j ≠ 4 * (i + 4 * k) ∧ j ≠ 4 * (i + 4 * k) + 2) →
        (bgraLoop fuel pix i iEnd).getD j 0 = pix.getD j 0) := by
  intro fuel
  induction fuel with
  | zero =>
    intro i pix iEnd hfuel hlen
    refine ⟨rfl, ?_, fun j _ => rfl⟩
    intro k hk
    exact absurd hk (by omega)
  | succ fuel ih =>
    intro i pix iEnd hfuel hlen
    have hstep : bgraLoop (fuel + 1) pix i iEnd
        = if i < iEnd then
            bgraLoop fuel (swapAt pix (4 * i) (4 * i + 2)) (i + 4) iEnd
          else pix := rfl
    by_cases hi : i < iEnd
    · rw [hstep, if_pos hi]
      have hb2 : 4 * i + 2 < pix.length := by omega
      have hb0 : 4 * i < pix.length := by omega
      have hlen' : 4 * iEnd ≤ (swapAt pix (4 * i) (4 * i + 2)).length := by
        rw [swapAt_length]
        exact hlen
      obtain ⟨ihlen, ihswap, ihrest⟩ :=
        ih (i + 4) (swapAt pix (4 * i) (4 * i + 2)) iEnd (by omega) hlen'
      have hpix0 : (swapAt pix (4 * i) (4 * i + 2)).getD (4 * i) 0
          = pix.getD (4 * i + 2) 0 := by
        unfold swapAt
        rw [getD_set_ne _ _ _ _ (by omega), getD_set_self _ _ _ hb0]
      have hpix2 : (swapAt pix (4 * i) (4 * i + 2)).getD (4 * i + 2) 0
          = pix.getD (4 * i) 0 := by
        unfold swapAt
        rw [getD_set_self]
        rw [List.length_set]
        exact hb2
      refine ⟨by rw [ihlen, swapAt_length], ?_, ?_⟩
      · intro k hk
        cases k with
        | zero =>
          have e0 : i + 4 * 0 = i := by omega
          rw [e0]
          have huntouched : ∀ k', (i + 4) + 4 * k' < iEnd →
              4 * i ≠ 4 * ((i + 4) + 4 * k') ∧
              4 * i ≠ 4 * ((i + 4) + 4 * k') + 2 := by
            intro k' _
            omega
          have huntouched2 : ∀ k', (i + 4) + 4 * k' < iEnd →
              4 * i + 2 ≠ 4 * ((i + 4) + 4 * k') ∧
              4 * i + 2 ≠ 4 * ((i + 4) + 4 * k') + 2 := by
            intro k' _
            omega
          constructor
          · rw [ihrest (4 * i) huntouched, hpix0]
          · rw [ihrest (4 * i + 2) huntouched2, hpix2]
        | succ k' =>
          have e1 : i + 4 * (k' + 1) = (i + 4) + 4 * k' := by omega
          rw [e1]
          have hk' : (i + 4) + 4 * k' < iEnd := by omega
          obtain ⟨hs1, hs2⟩ := ihswap k' hk'
          constructor
          · rw [hs1]
            exact swapAt_getD_ne pix _ _ _ (by omega) (by omega)
          · rw [hs2]
            exact swapAt_getD_ne pix _ _ _ (by omega) (by omega)
      · intro j hj
        have hj' : ∀ k', (i + 4) + 4 * k' < iEnd →
            j ≠ 4 * ((i + 4) + 4 * k') ∧ j ≠ 4 * ((i + 4) + 4 * k') + 2 := by
          intro k' hk'
          have := hj (k' + 1) (by omega)
          omega
        rw [ihrest j hj']
        have hj0 := hj 0 (by omega)
        exact swapAt_getD_ne pix _ _ _ (by omega) (by omega)
    · rw [hstep, if_neg hi]
      refine ⟨rfl, ?_, fun j _ => rfl⟩
      intro k hk
      exact absurd hk (by omega)

/-- C10: the channel-swap loop touches only the byte positions `16*k` and
`16*k + 2` for `4*k < len(pix)/4`; each such pair lies strictly within
bounds (so the loop cannot panic), those pairs are swapped — i.e. the R and
B bytes of only every fourth pixel — and every byte at any other position is
left unchanged, with the buffer length preserved. -/
theorem c10_bgra_swap_every_fourth_pixel (pix : List Nat) :
    (bgraConvert pix).length = pix.length ∧
    (∀ k, 4 * k < pix.length / 4 → 16 * k + 2 < pix.length) ∧
    (∀ k, 4 * k < pix.length / 4 →
      (bgraConvert pix).getD (16 * k) 0 = pix.getD (16 * k + 2) 0 ∧
      (bgraConvert pix).getD (16 * k + 2) 0 = pix.getD (16 * k) 0) ∧
    (∀ j, (∀ k, 4 * k < pix.length / 4 → j ≠ 16 * k ∧ j ≠ 16 * k + 2) →
      (bgraConvert pix).getD j 0 = pix.getD j 0) := by
  have hlen : 4 * (pix.length / 4) ≤ pix.length := by omega
  obtain ⟨h1, h2, h3⟩ :=
    bgraLoop_spec (pix.length / 4) 0 pix (pix.length / 4) (by omega) hlen
  refine ⟨h1, ?_, ?_, ?_⟩
  · intro k hk
    omega
  · intro k hk
    have := h2 k (by omega)
    rw [show 4 * (0 + 4 * k) = 16 * k by omega] at this
    exact this
  · intro j hj
    apply h3
    intro k hk
    have := hj k (by omega)
    omega

/-- Witness for C10: on a concrete 32-byte buffer, the pair at pixel 4
(bytes 16 and 18) is swapped while byte 5 is untouched. -/
theorem c10_bgra_swap_every_fourth_pixel_witness :
    (bgraConvert (List.range 32)).getD 16 0 = (List.range 32).getD 18 0 ∧
    (bgraConvert (List.range 32)).getD 5 0 = (List.range 32).getD 5 0 :=
  ⟨((c10_bgra_swap_every_fourth_pixel (List.range 32)).2.2.1 1 (by decide)).1,
   (c10_bgra_swap_every_fourth_pixel (List.range 32)).2.2.2 5
     (fun k hk => by omega)⟩

end JpegBench
